import Mathlib

/-!
Shallow embedding of `parse_command` from `todo.py` (the natural-language
command parser of the todoterm task tracker), together with theorems
settling the specification claims about it.

The Python function splits the command on whitespace, strips `#`-prefixed
tag tokens, then looks for a deadline: first a keyword-anchored search
(`for`/`due`/`by`/`on` followed by the whole token suffix), then a
brute-force windowed search over chunk sizes `min(5, n) .. 2`.  The
remaining tokens, space-joined, form the title.  The external
`dateparser.parse` dependency is modelled as an injected resolver
`String → Option α`.
-/

namespace TodoTerm

/-- Helper for `tokenize`: walks the character list, accumulating the
current (reversed) token; whitespace ends a token, empty tokens are
discarded.  Models the semantics of Python's `str.split()` with no
arguments, used in `parse_command` as `command.split()`. -/
def tokAux : List Char → List Char → List String
  | [], cur => if cur.isEmpty then [] else [String.mk cur.reverse]
  | c :: rest, cur =>
    if c.isWhitespace then
      if cur.isEmpty then tokAux rest [] else String.mk cur.reverse :: tokAux rest []
    else tokAux rest (c :: cur)

/-- `command.split()`: whitespace-run splitting with empty tokens dropped. -/
def tokenize (s : String) : List String := tokAux s.data []

/-- `part.startswith('#')`: the first character of the token is `'#'`. -/
def isTag (t : String) : Bool :=
  match t.data with
  | [] => false
  | c :: _ => c = '#'

/-- `part[1:]`: the token with its first character removed. -/
def strTail (t : String) : String := String.mk (t.data.drop 1)

/-- `part.lower()`, on the ASCII letters relevant to the keyword set. -/
def lower (t : String) : String := String.mk (t.data.map Char.toLower)

/-- `tags = [part[1:] for part in parts if part.startswith('#')]`. -/
def tagNames (parts : List String) : List String :=
  (parts.filter fun p => isTag p).map strTail

/-- `parts = [part for part in parts if not part.startswith('#')]`. -/
def removeTags (parts : List String) : List String :=
  parts.filter fun p => !(isTag p)

/-- `deadline_keywords = ['for', 'due', 'by', 'on']`. -/
def deadline_keywords : List String := ["for", "due", "by", "on"]

/-- `' '.join(l)`: tokens joined by single spaces. -/
def joinSp : List String → String
  | [] => ""
  | [t] => t
  | t :: ts => t ++ " " ++ joinSp ts

/-- The keyword loop `for i, part in enumerate(parts): ...` of
`parse_command`, walking the suffix `rest` of `parts` with `i` the index
of its head.  On a keyword (case-insensitively) followed by at least one
token, it resolves the whole remaining suffix; on success it returns the
value and the keyword's index, otherwise it keeps scanning. -/
def keywordFindAux {α : Type} (resolve : String → Option α) (parts : List String) :
    List String → Nat → Option (α × Nat)
  | [], _ => none
  | part :: rest, i =>
    if lower part ∈ deadline_keywords ∧ i + 1 < parts.length then
      match resolve (joinSp (parts.drop (i + 1))) with
      | some d => some (d, i)
      | none => keywordFindAux resolve parts rest (i + 1)
    else keywordFindAux resolve parts rest (i + 1)

/-- Stage 3 of `parse_command`: the keyword-anchored deadline search. -/
def keywordFind {α : Type} (resolve : String → Option α) (parts : List String) :
    Option (α × Nat) :=
  keywordFindAux resolve parts parts 0

/-- `parts[i:i + c]`: the window of `c` consecutive tokens starting at `i`. -/
def window (parts : List String) (i c : Nat) : List String :=
  (parts.drop i).take c

/-- One iteration of the brute-force double loop: given the state
`(best_deadline, best_i, best_chunk_size)` and the pair
`(chunk_size, i)`, attempt `dateparser.parse(' '.join(parts[i:i+c]))`
and update the best candidate when it succeeds and `i <= best_i`. -/
def bfStep {α : Type} (resolve : String → Option α) (parts : List String)
    (st : Option α × Nat × Nat) (ci : Nat × Nat) : Option α × Nat × Nat :=
  match resolve (joinSp (window parts ci.2 ci.1)) with
  | some d => if ci.2 ≤ st.2.1 then (some d, ci.2, ci.1) else st
  | none => st

/-- The inner loop of the brute-force search for a fixed chunk size:
`for i in range(len(parts) - chunk_size + 1)`. -/
def bfInner (n c : Nat) : List (Nat × Nat) :=
  (List.range (n + 1 - c)).map (fun i => (c, i))

/-- The iteration sequence of the brute-force double loop:
`for chunk_size in range(min(5, len(parts)), 1, -1): for i in
range(len(parts) - chunk_size + 1)`, as a list of
`(chunk_size, i)` pairs in iteration order. -/
def bfIter (n : Nat) : List (Nat × Nat) :=
  ((List.range' 2 (min 5 n - 1)).reverse).flatMap (bfInner n)

/-- Stage 4 of `parse_command`: the brute-force windowed search, started
from `best_deadline = None`, `best_i = len(parts)`, `best_chunk_size = 0`. -/
def bruteforce {α : Type} (resolve : String → Option α) (parts : List String) :
    Option α × Nat × Nat :=
  (bfIter parts.length).foldl (bfStep resolve parts) (none, parts.length, 0)

/-- The output of the parser at token granularity: the remaining title
tokens, the deadline, the tag names, plus two instrumentation fields read
directly off the code: `consumed` is the list of tokens dropped by the
deadline stage (in the keyword path that is `parts[i:]`, keyword
included), and `phrase` is the token list whose join was the phrase the
chosen deadline was resolved from (`parts[i+1:]` in the keyword path, the
chosen window in the brute-force path). -/
structure ParseOut (α : Type) where
  titleParts : List String
  deadline : Option α
  tags : List String
  consumed : List String
  phrase : List String
deriving DecidableEq

/-- `parse_command` at token granularity: tag extraction, then the
keyword-anchored search, then (only if that failed) the brute-force
windowed search. -/
def parseFull {α : Type} (resolve : String → Option α) (parts0 : List String) :
    ParseOut α :=
  match keywordFind resolve (removeTags parts0) with
  | some (d, i) =>
      ⟨(removeTags parts0).take i, some d, tagNames parts0,
        (removeTags parts0).drop i, (removeTags parts0).drop (i + 1)⟩
  | none =>
    match bruteforce resolve (removeTags parts0) with
    | (some d, bi, bc) =>
        ⟨(removeTags parts0).take bi ++ (removeTags parts0).drop (bi + bc), some d,
          tagNames parts0, window (removeTags parts0) bi bc,
          window (removeTags parts0) bi bc⟩
    | (none, _, _) => ⟨removeTags parts0, none, tagNames parts0, [], []⟩

/-- `parse_command(command)`: returns `(title, deadline, tags)` with the
title the space-join of the tokens left over after tag and deadline
consumption. -/
def parse_command {α : Type} (resolve : String → Option α) (command : String) :
    String × Option α × List String :=
  (joinSp (parseFull resolve (tokenize command)).titleParts,
    (parseFull resolve (tokenize command)).deadline,
    (parseFull resolve (tokenize command)).tags)

/-- A successful keyword anchor at index `i`: `parts[i]` is
(case-insensitively) a deadline keyword, at least one token follows it,
and the resolver accepts the joined suffix `parts[i+1:]`. -/
def kwHit {α : Type} (resolve : String → Option α) (parts : List String) (i : Nat) : Prop :=
  i + 1 < parts.length ∧ lower (parts.getD i "") ∈ deadline_keywords ∧
    (resolve (joinSp (parts.drop (i + 1)))).isSome = true

instance {α : Type} (resolve : String → Option α) (parts : List String) (i : Nat) :
    Decidable (kwHit resolve parts i) := by
  unfold kwHit; infer_instance

/-- A resolver-accepted brute-force window: chunk size between 2 and
`min(5, n)`, window inside the token list, and the resolver accepts the
joined window. -/
def bfAccepted {α : Type} (resolve : String → Option α) (parts : List String)
    (c i : Nat) : Prop :=
  2 ≤ c ∧ c ≤ min 5 parts.length ∧ i + c ≤ parts.length ∧
    (resolve (joinSp (window parts i c))).isSome = true

instance {α : Type} (resolve : String → Option α) (parts : List String) (c i : Nat) :
    Decidable (bfAccepted resolve parts c i) := by
  unfold bfAccepted; infer_instance

/-- A resolver that rejects every phrase. -/
def noResolve : String → Option Nat := fun _ => none

/-- A resolver that accepts exactly the phrase "tomorrow". -/
def tomorrowResolve : String → Option Nat := fun s => if s = "tomorrow" then some 1 else none

/-- A resolver that accepts exactly the (single-token) phrase "today". -/
def todayResolve : String → Option Nat := fun s => if s = "today" then some 1 else none

/-- A resolver that accepts exactly the phrase "w1 w2 w3". -/
def windowResolve : String → Option Nat := fun s => if s = "w1 w2 w3" then some 7 else none

/-! ### Helper lemmas -/

theorem parseFull_tags {α : Type} (resolve : String → Option α) (parts0 : List String) :
    (parseFull resolve parts0).tags = tagNames parts0 := by
  unfold parseFull
  split
  · rfl
  · split <;> rfl

theorem titleParts_subset {α : Type} {resolve : String → Option α} {parts0 : List String}
    {t : String} (h : t ∈ (parseFull resolve parts0).titleParts) :
    t ∈ removeTags parts0 := by
  unfold parseFull at h
  split at h
  · exact List.mem_of_mem_take h
  · split at h
    · rcases List.mem_append.1 h with h' | h'
      · exact List.mem_of_mem_take h'
      · exact List.mem_of_mem_drop h'
    · exact h

theorem not_isTag_of_mem_removeTags {parts0 : List String} {t : String}
    (h : t ∈ removeTags parts0) : isTag t = false := by
  have := (List.mem_filter.1 h).2
  simpa using this

theorem keywordFindAux_none {α : Type} {resolve : String → Option α} {parts : List String}
    (hres : ∀ i, i + 1 < parts.length → resolve (joinSp (parts.drop (i + 1))) = none) :
    ∀ rest i, keywordFindAux resolve parts rest i = none := by
  intro rest
  induction rest with
  | nil => intro i; rfl
  | cons p r ih =>
    intro i
    rw [keywordFindAux]
    split
    · rename_i hcond
      rw [hres i hcond.2]
      exact ih (i + 1)
    · exact ih (i + 1)

theorem foldl_bfStep_no_accept {α : Type} {resolve : String → Option α} {parts : List String}
    {L : List (Nat × Nat)} {st : Option α × Nat × Nat}
    (h : ∀ p ∈ L, resolve (joinSp (window parts p.2 p.1)) = none) :
    L.foldl (bfStep resolve parts) st = st := by
  induction L generalizing st with
  | nil => rfl
  | cons q L ih =>
    rw [List.foldl_cons]
    have hq : bfStep resolve parts st q = st := by
      unfold bfStep
      rw [h q (List.mem_cons_self q L)]
    rw [hq]
    exact ih (fun p hp => h p (List.mem_cons_of_mem q hp))

/-! ### Claim theorems -/

/-- C6: `parse_command` applied to the empty string returns title `""`,
deadline absent, and an empty tag list, for every resolver. -/
theorem parse_command_empty {α : Type} (resolve : String → Option α) :
    parse_command resolve "" = ("", none, []) := rfl

/-- C8: tag extraction is idempotent: applying the tag-extraction step to
the remaining sequence it produces yields no further tags and leaves the
sequence unchanged. -/
theorem tag_extraction_idempotent (parts : List String) :
    removeTags (removeTags parts) = removeTags parts
      ∧ tagNames (removeTags parts) = [] := by
  constructor
  · simp [removeTags, List.filter_filter]
  · simp only [tagNames, removeTags, List.filter_filter]
    rw [List.filter_eq_nil_iff.2 (by intro a _; simp), List.map_nil]

/-- C5: every `#`-initial token is turned into a tag (its text after the
`#`), in left-to-right input order without deduplication, and
`parse_command` on `"Buy milk #shopping #errand"` under a resolver that
rejects everything yields title `"Buy milk"`, no deadline, and tags
`["shopping", "errand"]`. -/
theorem tags_extracted_in_order :
    (∀ (α : Type) (resolve : String → Option α) (cmd : String),
        (parseFull resolve (tokenize cmd)).tags
          = ((tokenize cmd).filter fun t => isTag t).map strTail)
      ∧ parse_command noResolve "Buy milk #shopping #errand"
          = ("Buy milk", none, ["shopping", "errand"]) := by
  constructor
  · intro α resolve cmd
    rw [parseFull_tags]; rfl
  · decide

/-- C9: the title assembled by the parser contains no token whose first
character is `#`: every token remaining for the title fails `isTag`. -/
theorem title_has_no_tag_token {α : Type} (resolve : String → Option α) (cmd : String)
    (t : String) (h : t ∈ (parseFull resolve (tokenize cmd)).titleParts) :
    isTag t = false :=
  not_isTag_of_mem_removeTags (titleParts_subset h)

theorem title_has_no_tag_token_witness :
    ("Buy" ∈ (parseFull noResolve (tokenize "Buy milk #x")).titleParts)
      ∧ isTag "Buy" = false :=
  ⟨by decide, title_has_no_tag_token noResolve "Buy milk #x" "Buy" (by decide)⟩

/-- C10: an input containing the lone token `"#"` has the empty string
appended as a tag name, and the `"#"` token never reaches the title. -/
theorem lone_hash_token {α : Type} (resolve : String → Option α) (cmd : String)
    (h : "#" ∈ tokenize cmd) :
    "" ∈ (parseFull resolve (tokenize cmd)).tags
      ∧ "#" ∉ (parseFull resolve (tokenize cmd)).titleParts := by
  constructor
  · rw [parseFull_tags]
    have h1 : "#" ∈ (tokenize cmd).filter (fun t => isTag t) :=
      List.mem_filter.2 ⟨h, by decide⟩
    have h2 : strTail "#" = "" := by decide
    exact h2 ▸ List.mem_map_of_mem strTail h1
  · intro hmem
    exact absurd (not_isTag_of_mem_removeTags (titleParts_subset hmem)) (by decide)

theorem lone_hash_token_witness :
    ("#" ∈ tokenize "a # b")
      ∧ "" ∈ (parseFull noResolve (tokenize "a # b")).tags
      ∧ "#" ∉ (parseFull noResolve (tokenize "a # b")).titleParts :=
  ⟨by decide, lone_hash_token noResolve "a # b" (by decide)⟩

/-- C4: when no candidate phrase resolves (every keyword-suffix phrase and
every brute-force window phrase is rejected by the resolver), the parser
returns all remaining tokens as the title with deadline absent; the
embedding is a total function, so no exception is possible. -/
theorem parse_degrades_gracefully {α : Type} (resolve : String → Option α) (cmd : String)
    (hkw : ∀ i, i + 1 < (removeTags (tokenize cmd)).length →
        resolve (joinSp ((removeTags (tokenize cmd)).drop (i + 1))) = none)
    (hbf : ∀ p ∈ bfIter (removeTags (tokenize cmd)).length,
        resolve (joinSp (window (removeTags (tokenize cmd)) p.2 p.1)) = none) :
    parse_command resolve cmd
      = (joinSp (removeTags (tokenize cmd)), none, tagNames (tokenize cmd)) := by
  have h1 : keywordFind resolve (removeTags (tokenize cmd)) = none :=
    keywordFindAux_none hkw _ 0
  have h2 : bruteforce resolve (removeTags (tokenize cmd))
      = (none, (removeTags (tokenize cmd)).length, 0) :=
    foldl_bfStep_no_accept hbf
  unfold parse_command parseFull
  rw [h1, h2]

theorem parse_degrades_gracefully_witness :
    parse_command noResolve "asdf qwerty" = ("asdf qwerty", none, []) := by
  have h := parse_degrades_gracefully noResolve "asdf qwerty"
    (fun i _ => rfl) (fun p _ => rfl)
  exact h.trans (by decide)

/-- C1, as stated, is false: on `"Call mom for tomorrow"` with a resolver
accepting exactly `"tomorrow"`, the keyword token `"for"` is consumed by
the deadline stage but appears neither in the title, nor in the resolved
deadline phrase (`"tomorrow"`), nor among the raw tag tokens, so the
stated multiset equation fails. -/
theorem tokens_conserved_counterexample :
    ¬ (((parseFull tomorrowResolve (tokenize "Call mom for tomorrow")).titleParts
          : Multiset String)
        + ↑(parseFull tomorrowResolve (tokenize "Call mom for tomorrow")).phrase
        + ↑((tokenize "Call mom for tomorrow").filter fun t => isTag t)
        = ↑(tokenize "Call mom for tomorrow")) := by
  decide

/-- C1 (amended): the multiset of title tokens, tokens consumed by the
deadline stage (in the keyword path this includes the anchoring keyword
token itself), and raw `#`-prefixed tag tokens equals the multiset of
input tokens — no token is lost or invented. -/
theorem tokens_conserved {α : Type} (resolve : String → Option α) (cmd : String) :
    ((parseFull resolve (tokenize cmd)).titleParts : Multiset String)
      + ↑(parseFull resolve (tokenize cmd)).consumed
      + ↑((tokenize cmd).filter fun t => isTag t)
      = ↑(tokenize cmd) := by
  have hperm : List.Perm (((tokenize cmd).filter fun t => isTag t) ++ removeTags (tokenize cmd))
      (tokenize cmd) := List.filter_append_perm _ _
  have hsplit : ((removeTags (tokenize cmd) : Multiset String)
      + ↑((tokenize cmd).filter fun t => isTag t) = ↑(tokenize cmd)) := by
    rw [Multiset.coe_add, Multiset.coe_eq_coe]
    exact List.perm_append_comm.trans hperm
  rw [← hsplit]
  congr 1
  unfold parseFull
  split
  · rw [Multiset.coe_add, Multiset.coe_eq_coe, List.take_append_drop]
  · split
    · rename_i d bi bc _
      rw [Multiset.coe_add, Multiset.coe_eq_coe, window]
      have h1 : ((removeTags (tokenize cmd)).drop bi).take bc
          ++ (removeTags (tokenize cmd)).drop (bi + bc)
          = (removeTags (tokenize cmd)).drop bi := by
        rw [← List.drop_drop, List.take_append_drop]
      have hP : (removeTags (tokenize cmd)).take bi
          ++ (((removeTags (tokenize cmd)).drop bi).take bc
            ++ (removeTags (tokenize cmd)).drop (bi + bc))
          = removeTags (tokenize cmd) := by
        rw [h1, List.take_append_drop]
      have h2 : List.Perm
          (((removeTags (tokenize cmd)).take bi
            ++ (removeTags (tokenize cmd)).drop (bi + bc))
            ++ ((removeTags (tokenize cmd)).drop bi).take bc)
          ((removeTags (tokenize cmd)).take bi
            ++ (((removeTags (tokenize cmd)).drop bi).take bc
              ++ (removeTags (tokenize cmd)).drop (bi + bc))) := by
        rw [List.append_assoc]
        exact List.Perm.append_left _ List.perm_append_comm
      dsimp only
      exact h2.trans (by rw [hP])
    · simp

theorem getD_eq_of_lt {parts : List String} {i : Nat} (h : i < parts.length) :
    parts.getD i "" = parts[i] := by
  rw [List.getD_eq_getElem?_getD, List.getElem?_eq_getElem h]
  rfl

theorem keywordFindAux_step_not_hit {α : Type} {resolve : String → Option α}
    {parts : List String} {k : Nat} (hk : k < parts.length)
    (hnot : ¬ kwHit resolve parts k) :
    keywordFindAux resolve parts (parts.drop k) k
      = keywordFindAux resolve parts (parts.drop (k + 1)) (k + 1) := by
  rw [List.drop_eq_getElem_cons hk, keywordFindAux]
  split
  · rename_i hcond
    cases hr : resolve (joinSp (parts.drop (k + 1))) with
    | none => rfl
    | some d =>
      exact absurd ⟨hcond.2, (getD_eq_of_lt hk).symm ▸ hcond.1, by rw [hr]; rfl⟩ hnot
  · rfl

theorem keywordFindAux_step_hit {α : Type} {resolve : String → Option α}
    {parts : List String} {i : Nat} {d : α} (hhit : kwHit resolve parts i)
    (hd : resolve (joinSp (parts.drop (i + 1))) = some d) :
    keywordFindAux resolve parts (parts.drop i) i = some (d, i) := by
  have hi : i < parts.length := Nat.lt_of_succ_lt hhit.1
  rw [List.drop_eq_getElem_cons hi, keywordFindAux]
  rw [if_pos ⟨(getD_eq_of_lt hi) ▸ hhit.2.1, hhit.1⟩, hd]

theorem keywordFindAux_skip {α : Type} {resolve : String → Option α}
    {parts : List String} {i : Nat}
    (hfirst : ∀ j, j < i → ¬ kwHit resolve parts j) :
    ∀ k, k ≤ i → (keywordFindAux resolve parts (parts.drop k) k
      = keywordFindAux resolve parts (parts.drop i) i) := by
  suffices hgen : ∀ n k, k ≤ i → i - k = n →
      keywordFindAux resolve parts (parts.drop k) k
        = keywordFindAux resolve parts (parts.drop i) i by
    intro k hk
    exact hgen (i - k) k hk rfl
  intro n
  induction n with
  | zero =>
    intro k hk h0
    have : k = i := by omega
    rw [this]
  | succ n ih =>
    intro k hk hs
    have hki : k < i := by omega
    by_cases hlen : k < parts.length
    · rw [keywordFindAux_step_not_hit hlen (hfirst k hki)]
      exact ih (k + 1) (by omega) (by omega)
    · have h1 : parts.drop k = [] := List.drop_eq_nil_of_le (by omega)
      have h2 : parts.drop i = [] := List.drop_eq_nil_of_le (by omega)
      rw [h1, h2]
      rfl

/-- C2: after tag removal, if `i` is the smallest index carrying a
successful keyword anchor (a token case-insensitively in
`{for, due, by, on}`, with at least one token after it, whose joined
suffix the resolver accepts), then the parser sets the deadline to the
suffix's resolved value and drops all tokens from `i` on (keyword
included); earlier keyword occurrences whose suffix the resolver rejects
are skipped.  The brute-force search is bypassed: the result is built
entirely from the keyword stage. -/
theorem keyword_anchor_first {α : Type} (resolve : String → Option α) (cmd : String)
    (i : Nat) (d : α)
    (hhit : kwHit resolve (removeTags (tokenize cmd)) i)
    (hfirst : ∀ j, j < i → ¬ kwHit resolve (removeTags (tokenize cmd)) j)
    (hd : resolve (joinSp ((removeTags (tokenize cmd)).drop (i + 1))) = some d) :
    parseFull resolve (tokenize cmd)
      = ⟨(removeTags (tokenize cmd)).take i, some d, tagNames (tokenize cmd),
          (removeTags (tokenize cmd)).drop i, (removeTags (tokenize cmd)).drop (i + 1)⟩ := by
  have hfind : keywordFind resolve (removeTags (tokenize cmd)) = some (d, i) := by
    have h0 := keywordFindAux_skip hfirst 0 (Nat.zero_le i)
    rw [List.drop_zero] at h0
    rw [keywordFind, h0, keywordFindAux_step_hit hhit hd]
  unfold parseFull
  rw [hfind]

theorem keyword_anchor_first_witness :
    parseFull tomorrowResolve (tokenize "Call mom for tomorrow")
      = ⟨["Call", "mom"], some 1, [], ["for", "tomorrow"], ["tomorrow"]⟩ := by
  have h := keyword_anchor_first tomorrowResolve "Call mom for tomorrow" 2 1
    (by decide) (by decide) (by decide)
  exact h.trans (by decide)

theorem mem_bfIter {n c i : Nat} :
    (c, i) ∈ bfIter n ↔ 2 ≤ c ∧ c ≤ min 5 n ∧ i + c ≤ n := by
  simp only [bfIter, bfInner, List.mem_flatMap, List.mem_reverse, List.mem_range'_1,
    List.mem_map, List.mem_range, Prod.mk.injEq]
  constructor
  · rintro ⟨c', ⟨hc2, hclt⟩, j, hj, hcc, hij⟩
    subst hcc; subst hij
    omega
  · rintro ⟨h1, h2, h3⟩
    exact ⟨c, ⟨h1, by omega⟩, i, by omega, rfl, rfl⟩

theorem foldl_bfStep_bi_ge {α : Type} {resolve : String → Option α} {parts : List String}
    {m : Nat} : ∀ {L : List (Nat × Nat)} {st : Option α × Nat × Nat},
    m ≤ st.2.1 →
    (∀ p ∈ L, (resolve (joinSp (window parts p.2 p.1))).isSome = true → m ≤ p.2) →
    m ≤ (L.foldl (bfStep resolve parts) st).2.1 := by
  intro L
  induction L with
  | nil => intro st h1 _; exact h1
  | cons q L ih =>
    intro st h1 h2
    rw [List.foldl_cons]
    refine ih ?_ (fun p hp hs => h2 p (List.mem_cons_of_mem q hp) hs)
    unfold bfStep
    cases hr : resolve (joinSp (window parts q.2 q.1)) with
    | none => exact h1
    | some d =>
      dsimp only
      split
      · exact h2 q (List.mem_cons_self q L) (by rw [hr]; rfl)
      · exact h1

theorem foldl_bfStep_frozen {α : Type} {resolve : String → Option α} {parts : List String} :
    ∀ {L : List (Nat × Nat)} {st : Option α × Nat × Nat},
    (∀ p ∈ L, (resolve (joinSp (window parts p.2 p.1))).isSome = true → ¬ (p.2 ≤ st.2.1)) →
    L.foldl (bfStep resolve parts) st = st := by
  intro L
  induction L with
  | nil => intro st _; rfl
  | cons q L ih =>
    intro st h
    rw [List.foldl_cons]
    have hq : bfStep resolve parts st q = st := by
      unfold bfStep
      cases hr : resolve (joinSp (window parts q.2 q.1)) with
      | none => rfl
      | some d =>
        dsimp only
        rw [if_neg (h q (List.mem_cons_self q L) (by rw [hr]; rfl))]
    rw [hq]
    exact ih (fun p hp hs => h p (List.mem_cons_of_mem q hp) hs)

theorem bfIter_decomp {n c i : Nat} (hc2 : 2 ≤ c) (hcm : c ≤ min 5 n) (hic : i + c ≤ n) :
    ∃ P S, bfIter n = P ++ (c, i) :: S
      ∧ (∀ p ∈ S, (p.1 = c ∧ i < p.2) ∨ p.1 < c) := by
  have e1 : List.range' 2 (c - 2) ++ List.range' c (min 5 n + 1 - c)
      = List.range' 2 (min 5 n - 1) := by
    have h := List.range'_append_1 2 (c - 2) (min 5 n + 1 - c)
    rw [show 2 + (c - 2) = c by omega,
      show min 5 n + 1 - c + (c - 2) = min 5 n - 1 by omega] at h
    exact h
  have e2 : List.range' c 1 ++ List.range' (c + 1) (min 5 n - c)
      = List.range' c (min 5 n + 1 - c) := by
    have h := List.range'_append_1 c 1 (min 5 n - c)
    rw [show min 5 n - c + 1 = min 5 n + 1 - c by omega] at h
    exact h
  have e3 : List.range' 0 i ++ List.range' i (n + 1 - c - i) = List.range' 0 (n + 1 - c) := by
    have h := List.range'_append_1 0 i (n + 1 - c - i)
    rw [show 0 + i = i by omega, show n + 1 - c - i + i = n + 1 - c by omega] at h
    exact h
  have e4 : List.range' i 1 ++ List.range' (i + 1) (n - c - i)
      = List.range' i (n + 1 - c - i) := by
    have h := List.range'_append_1 i 1 (n - c - i)
    rw [show n - c - i + 1 = n + 1 - c - i by omega] at h
    exact h
  have hsplit1 : (List.range' 2 (min 5 n - 1)).reverse
      = (List.range' (c + 1) (min 5 n - c)).reverse ++ [c]
        ++ (List.range' 2 (c - 2)).reverse := by
    rw [← e1, ← e2]
    simp [List.reverse_append, List.append_assoc]
  have hinner : bfInner n c
      = (List.range' 0 i).map (fun j => (c, j))
        ++ ((c, i) :: (List.range' (i + 1) (n - c - i)).map (fun j => (c, j))) := by
    unfold bfInner
    rw [List.range_eq_range', ← e3, ← e4]
    simp [List.range'_one]
  refine ⟨(List.range' (c + 1) (min 5 n - c)).reverse.flatMap (bfInner n)
      ++ (List.range' 0 i).map (fun j => (c, j)),
    (List.range' (i + 1) (n - c - i)).map (fun j => (c, j))
      ++ (List.range' 2 (c - 2)).reverse.flatMap (bfInner n), ?_, ?_⟩
  · show bfIter n = _
    rw [bfIter, hsplit1, List.flatMap_append, List.flatMap_append]
    rw [show ([c] : List Nat).flatMap (bfInner n) = bfInner n c by simp]
    rw [hinner]
    simp [List.append_assoc]
  · intro p hp
    rcases List.mem_append.1 hp with hp1 | hp2
    · rw [List.mem_map] at hp1
      obtain ⟨j, hj, rfl⟩ := hp1
      rw [List.mem_range'_1] at hj
      exact Or.inl ⟨rfl, by omega⟩
    · rw [List.mem_flatMap] at hp2
      obtain ⟨c', hc', hpc⟩ := hp2
      rw [List.mem_reverse, List.mem_range'_1] at hc'
      rw [bfInner, List.mem_map] at hpc
      obtain ⟨j, _, rfl⟩ := hpc
      exact Or.inr (by omega)

theorem bruteforce_eq_of_min {α : Type} {resolve : String → Option α} {parts : List String}
    {c i : Nat} (ha : bfAccepted resolve parts c i)
    (hmin_i : ∀ c' i', bfAccepted resolve parts c' i' → i ≤ i')
    (hmin_c : ∀ c', bfAccepted resolve parts c' i → c ≤ c') :
    bruteforce resolve parts = (resolve (joinSp (window parts i c)), i, c) := by
  obtain ⟨hc2, hcm, hic, hsome⟩ := ha
  obtain ⟨d, hd⟩ := Option.isSome_iff_exists.1 hsome
  obtain ⟨P, S, hdec, hS⟩ := bfIter_decomp hc2 hcm hic
  have hsubP : ∀ p ∈ P, p ∈ bfIter parts.length := by
    intro p hp; rw [hdec]; exact List.mem_append.2 (Or.inl hp)
  have hsubS : ∀ p ∈ S, p ∈ bfIter parts.length := by
    intro p hp; rw [hdec]
    exact List.mem_append.2 (Or.inr (List.mem_cons_of_mem _ hp))
  have hacc_of : ∀ p, p ∈ bfIter parts.length →
      (resolve (joinSp (window parts p.2 p.1))).isSome = true →
      bfAccepted resolve parts p.1 p.2 := by
    intro p hp hs
    have hm := mem_bfIter.1 hp
    exact ⟨hm.1, hm.2.1, hm.2.2, hs⟩
  unfold bruteforce
  rw [hdec, List.foldl_append, List.foldl_cons]
  have h1 : i ≤ (P.foldl (bfStep resolve parts) (none, parts.length, 0)).2.1 :=
    foldl_bfStep_bi_ge (by dsimp only; omega)
      (fun p hp hs => hmin_i p.1 p.2 (hacc_of p (hsubP p hp) hs))
  have h2 : bfStep resolve parts (P.foldl (bfStep resolve parts) (none, parts.length, 0)) (c, i)
      = (some d, i, c) := by
    have hstep : bfStep resolve parts
        (P.foldl (bfStep resolve parts) (none, parts.length, 0)) (c, i)
        = if i ≤ (P.foldl (bfStep resolve parts) (none, parts.length, 0)).2.1
          then (some d, i, c)
          else P.foldl (bfStep resolve parts) (none, parts.length, 0) := by
      unfold bfStep
      dsimp only
      rw [hd]
    rw [hstep, if_pos h1]
  rw [h2]
  have h3 : S.foldl (bfStep resolve parts) (some d, i, c) = (some d, i, c) := by
    refine foldl_bfStep_frozen ?_
    intro p hp hs
    dsimp only
    rcases hS p hp with ⟨hpc, hpi⟩ | hlt
    · omega
    · have hacc := hacc_of p (hsubS p hp) hs
      have hge := hmin_i p.1 p.2 hacc
      intro hle
      have hpi : p.2 = i := by omega
      have := hmin_c p.1 (hpi ▸ hacc)
      omega
  rw [h3, hd]

/-- C3: with no successful keyword anchor, the brute-force search selects
the resolver-accepted window with the smallest starting index and, among
accepted windows at that start, the smallest chunk size (the one found
last in the iteration order: chunk size descending, start ascending);
that window's span is removed from the working sequence and the deadline
is set to its resolved value. -/
theorem bruteforce_tiebreak {α : Type} (resolve : String → Option α) (cmd : String)
    (c i : Nat)
    (hkw : keywordFind resolve (removeTags (tokenize cmd)) = none)
    (ha : bfAccepted resolve (removeTags (tokenize cmd)) c i)
    (hmin_i : ∀ c' i', bfAccepted resolve (removeTags (tokenize cmd)) c' i' → i ≤ i')
    (hmin_c : ∀ c', bfAccepted resolve (removeTags (tokenize cmd)) c' i → c ≤ c') :
    parseFull resolve (tokenize cmd)
      = ⟨(removeTags (tokenize cmd)).take i ++ (removeTags (tokenize cmd)).drop (i + c),
          resolve (joinSp (window (removeTags (tokenize cmd)) i c)),
          tagNames (tokenize cmd),
          window (removeTags (tokenize cmd)) i c,
          window (removeTags (tokenize cmd)) i c⟩ := by
  obtain ⟨d, hd⟩ := Option.isSome_iff_exists.1 ha.2.2.2
  have hb := bruteforce_eq_of_min ha hmin_i hmin_c
  unfold parseFull
  rw [hkw, hb, hd]

theorem bruteforce_tiebreak_witness :
    parseFull windowResolve (tokenize "t0 t1 w1 w2 w3 t5")
      = ⟨["t0", "t1", "t5"], some 7, [], ["w1", "w2", "w3"], ["w1", "w2", "w3"]⟩ := by
  have hlen : (removeTags (tokenize "t0 t1 w1 w2 w3 t5")).length = 6 := by decide
  have key1 : ∀ c' < 7, ∀ i' < 7,
      bfAccepted windowResolve (removeTags (tokenize "t0 t1 w1 w2 w3 t5")) c' i' → 2 ≤ i' := by
    decide
  have key2 : ∀ c' < 7,
      bfAccepted windowResolve (removeTags (tokenize "t0 t1 w1 w2 w3 t5")) c' 2 → 3 ≤ c' := by
    decide
  have h := bruteforce_tiebreak windowResolve "t0 t1 w1 w2 w3 t5" 3 2
    (by decide) (by decide)
    (by
      intro c' i' hacc
      have hb1 := hacc.1
      have hb2 := hacc.2.1
      have hb3 := hacc.2.2.1
      rw [hlen] at hb2 hb3
      exact key1 c' (by omega) i' (by omega) hacc)
    (by
      intro c' hacc
      have hb1 := hacc.1
      have hb2 := hacc.2.1
      rw [hlen] at hb2
      exact key2 c' (by omega) hacc)
  exact h.trans (by decide)

theorem joinSp_cons_cons (a b : String) (t : List String) :
    joinSp (a :: b :: t) = a ++ " " ++ joinSp (b :: t) := rfl

theorem joinSp_space {l : List String} (h : 2 ≤ l.length) : ' ' ∈ (joinSp l).data := by
  match l with
  | a :: b :: t =>
    rw [joinSp_cons_cons, String.data_append, String.data_append]
    refine List.mem_append.2 (Or.inl (List.mem_append.2 (Or.inr ?_)))
    decide

/-- C7: the brute-force iteration ranges exactly over the windows of
length 2 to `min(5, n)` at every start index keeping the window inside
the remaining tokens — single-token windows are never tried.
Consequently, with no successful keyword anchor and a resolver that only
accepts space-free (single-token) phrases, the deadline is absent. -/
theorem bruteforce_windows_only {α : Type} (resolve : String → Option α) (cmd : String) :
    (∀ c i, ((c, i) ∈ bfIter (removeTags (tokenize cmd)).length
        ↔ 2 ≤ c ∧ c ≤ min 5 (removeTags (tokenize cmd)).length
          ∧ i + c ≤ (removeTags (tokenize cmd)).length))
    ∧ (keywordFind resolve (removeTags (tokenize cmd)) = none →
       (∀ s, (resolve s).isSome = true → ¬ (' ' ∈ s.data)) →
       (parseFull resolve (tokenize cmd)).deadline = none) := by
  refine ⟨fun c i => mem_bfIter, fun hkw hres => ?_⟩
  have hnone : ∀ p ∈ bfIter (removeTags (tokenize cmd)).length,
      resolve (joinSp (window (removeTags (tokenize cmd)) p.2 p.1)) = none := by
    intro p hp
    cases hr : resolve (joinSp (window (removeTags (tokenize cmd)) p.2 p.1)) with
    | none => rfl
    | some d =>
      exfalso
      apply hres _ (by rw [hr]; rfl)
      have hm := mem_bfIter.1 hp
      refine joinSp_space ?_
      rw [window, List.length_take, List.length_drop]
      omega
  have hb : bruteforce resolve (removeTags (tokenize cmd))
      = (none, (removeTags (tokenize cmd)).length, 0) :=
    foldl_bfStep_no_accept hnone
  unfold parseFull
  rw [hkw, hb]

theorem bruteforce_windows_only_witness :
    (parseFull todayResolve (tokenize "pay rent today")).deadline = none := by
  refine (bruteforce_windows_only todayResolve "pay rent today").2 (by decide) ?_
  intro s hs
  by_cases h : s = "today"
  · subst h; decide
  · simp [todayResolve, h] at hs

end TodoTerm
